import Mathlib

set_option maxRecDepth 8000

/-!
Verification development for the `MmapDict` single-file memory-mapped
key/value store (`odin/fuel/utils.py`).

The embedding is at the level of abstract byte tokens: a file is a
`List Nat`, an encoded value is a `List Nat`, and all offsets and
lengths are counted in tokens.  This mirrors the Python code exactly in
structure: the header is the 8-character magic `'mmapdict'`, followed by
two 48-character ASCII-decimal fields (high-water mark, index-blob
length), the data region, and the pickled index blob at the high-water
mark.  The Python code keeps, in memory,

  * `_dict`        : an ordered mapping key -> (offset, length),
  * `_max_position`: the high-water mark including buffered bytes,
  * `_write_value` : the buffered, not yet flushed, concatenated bytes,
  * `_new_dict`    : the pending overlay key -> encoded bytes.

All definitions below are computable and structurally recursive so that
concrete runs evaluate by `decide` / `rfl` in the kernel.
-/

/-! ### Serializer

Modelled from the spec: the serializer is Python's `marshal` standard
library module (`marshal.dumps` / `marshal.loads`), which is not part of
this repository's sources.  Per the spec's Serializer contract it
converts numbers, booleans, text strings, the absence-of-value marker,
and sequences/mappings recursively composed of these, to a compact,
self-delimiting token encoding, and `decode (encode v) = v`.
Floating-point numbers are represented by their IEEE-754 binary64 bit
pattern (marshal writes the 8 raw bytes, so the round-trip is
bit-exact). -/

mutual

/-- A primitive value storable in the dictionary: the closed set of
shapes the serializer supports. -/
inductive PValue where
  | pnone : PValue
  | pbool : Bool → PValue
  | pint : Int → PValue
  | pfloat : Nat → PValue
  | pstr : List Nat → PValue
  | plist : PList → PValue
  | pdict : PDict → PValue

/-- A sequence of primitive values. -/
inductive PList where
  | nil : PList
  | cons : PValue → PList → PList

/-- A mapping given as a sequence of key/value pairs of primitive
values. -/
inductive PDict where
  | nil : PDict
  | cons : PValue → PValue → PDict → PDict

end

/-- Number of elements of a `PList`. -/
def plen : PList → Nat
  | .nil => 0
  | .cons _ t => plen t + 1

/-- Number of entries of a `PDict`. -/
def dlen : PDict → Nat
  | .nil => 0
  | .cons _ _ t => dlen t + 1

mutual

/-- `marshal.dumps`: tagged, self-delimiting token encoding of a
primitive value. -/
def encodePValue : PValue → List Nat
  | .pnone => [0]
  | .pbool b => [1, cond b 1 0]
  | .pint i => [2, if i < 0 then 1 else 0, i.natAbs]
  | .pfloat bits => [3, bits]
  | .pstr s => 4 :: s.length :: s
  | .plist l => 5 :: plen l :: encL l
  | .pdict d => 6 :: dlen d :: encP d

/-- Encoding of the elements of a sequence, concatenated. -/
def encL : PList → List Nat
  | .nil => []
  | .cons v t => encodePValue v ++ encL t

/-- Encoding of the entries of a mapping, concatenated key-then-value. -/
def encP : PDict → List Nat
  | .nil => []
  | .cons k v t => encodePValue k ++ encodePValue v ++ encP t

end

mutual

/-- Fuel bound used to run the decoder on an encoded value. -/
def psize : PValue → Nat
  | .pnone => 1
  | .pbool _ => 1
  | .pint _ => 1
  | .pfloat _ => 1
  | .pstr _ => 1
  | .plist l => psizeL l + 1
  | .pdict d => psizeP d + 1

/-- Fuel bound for decoding the elements of a sequence. -/
def psizeL : PList → Nat
  | .nil => 0
  | .cons v t => psize v + psizeL t + 1

/-- Fuel bound for decoding the entries of a mapping. -/
def psizeP : PDict → Nat
  | .nil => 0
  | .cons k v t => psize k + psize v + psizeP t + 1

end

/-- One step of `marshal.loads`: parse a single value from the front of
a token stream, returning it with the unconsumed rest.  Structurally
recursive on `fuel` so that the kernel can evaluate it. -/
def decodeAux : Nat → List Nat → Option (PValue × List Nat)
  | 0, _ => none
  | _ + 1, 0 :: r => some (.pnone, r)
  | _ + 1, 1 :: 0 :: r => some (.pbool false, r)
  | _ + 1, 1 :: 1 :: r => some (.pbool true, r)
  | _ + 1, 2 :: 0 :: m :: r => some (.pint (Int.ofNat m), r)
  | _ + 1, 2 :: 1 :: m :: r => some (.pint (-(Int.ofNat m)), r)
  | _ + 1, 3 :: bits :: r => some (.pfloat bits, r)
  | _ + 1, 4 :: n :: r =>
      if n ≤ r.length then some (.pstr (r.take n), r.drop n) else none
  | _ + 1, 5 :: 0 :: r => some (.plist .nil, r)
  | fuel + 1, 5 :: (n + 1) :: r =>
      match decodeAux fuel r with
      | some (v, r1) =>
        match decodeAux fuel (5 :: n :: r1) with
        | some (.plist t, r2) => some (.plist (.cons v t), r2)
        | _ => none
      | none => none
  | _ + 1, 6 :: 0 :: r => some (.pdict .nil, r)
  | fuel + 1, 6 :: (n + 1) :: r =>
      match decodeAux fuel r with
      | some (k, r1) =>
        match decodeAux fuel r1 with
        | some (v, r2) =>
          match decodeAux fuel (6 :: n :: r2) with
          | some (.pdict t, r3) => some (.pdict (.cons k v t), r3)
          | _ => none
        | none => none
      | none => none
  | _ + 1, _ => none

/-- `marshal.loads` on an exact slice: decode a value and require that
the whole slice is consumed. -/
def decodePValue (ts : List Nat) : Option PValue :=
  match decodeAux (2 * ts.length + 1) ts with
  | some (v, []) => some v
  | _ => none

mutual

/-- The decoding fuel needed for a value is below twice its encoded
length. -/
theorem psize_lt_encode : (v : PValue) → psize v + 1 ≤ 2 * (encodePValue v).length
  | .pnone => by simp [psize, encodePValue]
  | .pbool b => by simp [psize, encodePValue]
  | .pint i => by simp [psize, encodePValue]
  | .pfloat bits => by simp [psize, encodePValue]
  | .pstr s => by simp [psize, encodePValue]
  | .plist l => by
      have h := psizeL_le_encL l
      simp [psize, encodePValue]; omega
  | .pdict d => by
      have h := psizeP_le_encP d
      simp [psize, encodePValue]; omega

/-- Fuel bound for sequence elements against their encoded length. -/
theorem psizeL_le_encL : (l : PList) → psizeL l ≤ 2 * (encL l).length
  | .nil => by simp [psizeL, encL]
  | .cons v t => by
      have h1 := psize_lt_encode v
      have h2 := psizeL_le_encL t
      simp [psizeL, encL]; omega

/-- Fuel bound for mapping entries against their encoded length. -/
theorem psizeP_le_encP : (d : PDict) → psizeP d ≤ 2 * (encP d).length
  | .nil => by simp [psizeP, encP]
  | .cons k v t => by
      have h1 := psize_lt_encode k
      have h2 := psize_lt_encode v
      have h3 := psizeP_le_encP t
      simp [psizeP, encP]; omega

end

/-- Every value needs at least one unit of decoding fuel. -/
theorem one_le_psize (v : PValue) : 1 ≤ psize v := by
  cases v <;> simp only [psize] <;> omega

/-- The decoder inverts the encoder on the front of any stream, given
enough fuel; stated jointly for single values, sequence tails and
mapping tails so that the induction is on fuel alone. -/
theorem decodeAux_spec : ∀ fuel : Nat,
    (∀ (l : PList) (rest : List Nat), psizeL l + 1 ≤ fuel →
      decodeAux fuel (5 :: plen l :: (encL l ++ rest)) = some (.plist l, rest)) ∧
    (∀ (d : PDict) (rest : List Nat), psizeP d + 1 ≤ fuel →
      decodeAux fuel (6 :: dlen d :: (encP d ++ rest)) = some (.pdict d, rest)) ∧
    (∀ (v : PValue) (rest : List Nat), psize v ≤ fuel →
      decodeAux fuel (encodePValue v ++ rest) = some (v, rest)) := by
  intro fuel
  induction fuel using Nat.strong_induction_on with
  | _ fuel IH =>
    have hlist : ∀ (l : PList) (rest : List Nat), psizeL l + 1 ≤ fuel →
        decodeAux fuel (5 :: plen l :: (encL l ++ rest)) = some (.plist l, rest) := by
      intro l rest hle
      obtain ⟨f, rfl⟩ : ∃ f, fuel = f + 1 := ⟨fuel - 1, by omega⟩
      cases l with
      | nil => simp [plen, encL, decodeAux]
      | cons v t =>
        have hv := ((IH f (by omega)).2.2) v (encL t ++ rest)
          (by simp only [psizeL] at hle; omega)
        have ht := ((IH f (by omega)).1) t rest
          (by simp only [psizeL] at hle; omega)
        simp only [plen, encL, List.append_assoc]
        simp only [decodeAux, List.append_eq, List.append_assoc]
        simp [hv, ht]
    have hdict : ∀ (d : PDict) (rest : List Nat), psizeP d + 1 ≤ fuel →
        decodeAux fuel (6 :: dlen d :: (encP d ++ rest)) = some (.pdict d, rest) := by
      intro d rest hle
      obtain ⟨f, rfl⟩ : ∃ f, fuel = f + 1 := ⟨fuel - 1, by omega⟩
      cases d with
      | nil => simp [dlen, encP, decodeAux]
      | cons k v t =>
        have hk := ((IH f (by omega)).2.2) k (encodePValue v ++ (encP t ++ rest))
          (by simp only [psizeP] at hle; omega)
        have hv := ((IH f (by omega)).2.2) v (encP t ++ rest)
          (by simp only [psizeP] at hle; omega)
        have ht := ((IH f (by omega)).2.1) t rest
          (by simp only [psizeP] at hle; omega)
        simp only [dlen, encP, List.append_assoc]
        simp only [decodeAux, List.append_eq, List.append_assoc]
        simp [hk, hv, ht]
    refine ⟨hlist, hdict, ?_⟩
    intro v rest hle
    obtain ⟨f, rfl⟩ : ∃ f, fuel = f + 1 :=
      ⟨fuel - 1, by have := one_le_psize v; omega⟩
    cases v with
    | pnone => simp [encodePValue, decodeAux]
    | pbool b => cases b <;> simp [encodePValue, decodeAux]
    | pint i =>
      rcases lt_or_le i 0 with hi | hi
      · have hv : -Int.ofNat i.natAbs = i := by
          simp only [Int.ofNat_eq_coe]; omega
        simp only [encodePValue, if_pos hi, List.cons_append, List.nil_append]
        simp only [decodeAux]
        rw [hv]
      · have hv : Int.ofNat i.natAbs = i := by
          simp only [Int.ofNat_eq_coe]; omega
        simp only [encodePValue, if_neg (not_lt.mpr hi), List.cons_append,
          List.nil_append]
        simp only [decodeAux]
        rw [hv]
    | pfloat bits => simp [encodePValue, decodeAux]
    | pstr s =>
      simp only [encodePValue, List.cons_append, decodeAux]
      rw [if_pos (by simp)]
      simp only [List.append_eq, List.take_left, List.drop_left]
    | plist l =>
      have := hlist l rest (by simp only [psize] at hle; omega)
      simpa [encodePValue] using this
    | pdict d =>
      have := hdict d rest (by simp only [psize] at hle; omega)
      simpa [encodePValue] using this

/-- **Serializer round-trip**: decoding an encoded primitive value gives
the value back. -/
theorem decode_encode (v : PValue) : decodePValue (encodePValue v) = some v := by
  have hfuel := psize_lt_encode v
  have h := (decodeAux_spec (2 * (encodePValue v).length + 1)).2.2 v [] (by omega)
  simp only [List.append_nil] at h
  simp [decodePValue, h]

/-! ### Fixed-width ASCII-decimal header fields

`MmapDict.SIZE_BYTES = 48`: the high-water mark and the index-blob
length are stored as `('%48d') % n` and read back with `int(...)`. -/

/-- Decimal digit characters of `n`, most significant first, computed
with structural fuel (`n + 1` suffices). -/
def decDigitsAux : Nat → Nat → List Nat
  | 0, _ => []
  | f + 1, n => if n < 10 then [48 + n] else decDigitsAux f (n / 10) ++ [48 + n % 10]

/-- The decimal digit characters of `n`, as produced by `'%d' % n`. -/
def decDigits (n : Nat) : List Nat := decDigitsAux (n + 1) n

/-- `('%48d') % n`: the decimal digits right-justified in a 48-character
field, left-padded with spaces (character 32).  If the number needs more
than 48 digits the result is longer than 48 characters, exactly as in
Python. -/
def field48 (n : Nat) : List Nat :=
  List.replicate (48 - (decDigits n).length) 32 ++ decDigits n

/-- Is the character a decimal digit? -/
def isDigitTok (c : Nat) : Bool := 48 ≤ c && c ≤ 57

/-- Numeric value of a digit string, most significant first. -/
def decVal (l : List Nat) : Nat := l.foldl (fun a c => 10 * a + (c - 48)) 0

/-- Python's `int(...)` applied to a read header field: leading spaces
are ignored, the remainder must be a nonempty digit string, else a
`ValueError` (modelled as `none`). -/
def parseField (l : List Nat) : Option Nat :=
  let s := l.dropWhile (fun c => c == 32)
  if s ≠ [] ∧ s.all isDigitTok = true then some (decVal s) else none

theorem decVal_append (l : List Nat) (c : Nat) :
    decVal (l ++ [c]) = 10 * decVal l + (c - 48) := by
  simp [decVal]

theorem decDigitsAux_spec : ∀ f n, n < f →
    decDigitsAux f n ≠ [] ∧ (decDigitsAux f n).all isDigitTok = true ∧
      decVal (decDigitsAux f n) = n := by
  intro f
  induction f with
  | zero => omega
  | succ f IH =>
    intro n hn
    by_cases h10 : n < 10
    · refine ⟨by simp [decDigitsAux, h10], ?_, ?_⟩
      · simp [decDigitsAux, h10, isDigitTok]; omega
      · simp [decDigitsAux, h10, decVal]
    · obtain ⟨hne, hdig, hval⟩ := IH (n / 10) (by omega)
      refine ⟨by simp [decDigitsAux, h10], ?_, ?_⟩
      · simp only [decDigitsAux, if_neg h10, List.all_append, hdig,
          Bool.true_and, List.all_cons, List.all_nil, Bool.and_true,
          isDigitTok]
        simp; omega
      · simp only [decDigitsAux, if_neg h10, decVal_append, hval]
        omega

/-- The decimal rendering of `n` parses back to `n` (digits are
nonempty, all digits, and evaluate to `n`). -/
theorem decDigits_spec (n : Nat) :
    decDigits n ≠ [] ∧ (decDigits n).all isDigitTok = true ∧
      decVal (decDigits n) = n :=
  decDigitsAux_spec (n + 1) n (by omega)

/-- Round-trip of a header field: formatting then `int(...)` recovers
the number, whatever its width. -/
theorem parseField_field48 (n : Nat) : parseField (field48 n) = some n := by
  obtain ⟨hne, hdig, hval⟩ := decDigits_spec n
  have hdrop : (field48 n).dropWhile (fun c => c == 32) = decDigits n := by
    have h1 : (List.replicate (48 - (decDigits n).length) 32).dropWhile
        (fun c : Nat => c == 32) = [] := by
      simp [List.dropWhile_replicate]
    rw [field48, List.dropWhile_append]
    simp only [h1, List.isEmpty_nil, if_pos]
    cases hd : decDigits n with
    | nil => simp
    | cons c t =>
      have hc : isDigitTok c = true := by
        have := hdig; rw [hd] at this; simp [List.all_cons] at this
        exact this.1
      have : (c == 32) = false := by
        simp only [isDigitTok, Bool.and_eq_true, decide_eq_true_eq] at hc
        simp; omega
      simp [List.dropWhile_cons, this]
  simp [parseField, hdrop, hne, hdig, hval]

/-- Length of the 48-character field when the value fits the digit
budget. -/
theorem field48_length {n : Nat} (h : (decDigits n).length ≤ 48) :
    (field48 n).length = 48 := by
  simp [field48]; omega

/-! ### The file as a byte sequence -/

/-- `file.seek(off); file.read(n)` — also how reads through the shared
memory mapping are modelled (`mmap.seek` / `mmap.read`).  Reading past
the end returns fewer bytes, as in Python. -/
def readAt (f : List Nat) (off n : Nat) : List Nat := (f.drop off).take n

/-- `file.seek(off); file.write(bs)`: overwrite in place, zero-padding
if the seek position is past the end, extending the file if the write
runs past the end. -/
def writeAt (f : List Nat) (off : Nat) (bs : List Nat) : List Nat :=
  f.take off ++ List.replicate (off - f.length) 0 ++ bs ++ f.drop (off + bs.length)

/-- A sequence of positioned writes, applied in order. -/
def applyWrites (f : List Nat) (ws : List (Nat × List Nat)) : List Nat :=
  ws.foldl (fun acc w => writeAt acc w.1 w.2) f

theorem writeAt_of_le {f : List Nat} {off : Nat} (bs : List Nat)
    (hoff : off ≤ f.length) :
    writeAt f off bs = f.take off ++ bs ++ f.drop (off + bs.length) := by
  simp [writeAt, Nat.sub_eq_zero_of_le hoff]

theorem length_writeAt {f : List Nat} {off : Nat} {bs : List Nat}
    (hoff : off ≤ f.length) :
    (writeAt f off bs).length = max f.length (off + bs.length) := by
  rw [writeAt_of_le bs hoff]
  simp [List.length_append, List.length_take, List.length_drop]
  omega

/-- A write does not disturb bytes strictly before or at-or-after it. -/
theorem getElem?_writeAt {f : List Nat} {off : Nat} {bs : List Nat} {i : Nat}
    (hoff : off ≤ f.length) (hi : i < off ∨ off + bs.length ≤ i) :
    (writeAt f off bs)[i]? = f[i]? := by
  rw [writeAt_of_le bs hoff]
  rcases hi with hi | hi
  · rw [List.append_assoc, List.getElem?_append_left
      (by simp [List.length_take]; omega)]
    exact List.getElem?_take_of_lt hi
  · rw [List.append_assoc, List.getElem?_append_right
      (by simp [List.length_take]; omega)]
    rw [List.getElem?_append_right (by simp; omega)]
    rw [List.getElem?_drop]
    congr 1
    simp [List.length_take]
    omega

/-- Reading a slice that lies strictly before a write is unchanged. -/
theorem readAt_writeAt_before {f : List Nat} {off a n : Nat} {bs : List Nat}
    (hoff : off ≤ f.length) (han : a + n ≤ off) :
    readAt (writeAt f off bs) a n = readAt f a n := by
  apply List.ext_getElem?
  intro i
  simp only [readAt, List.getElem?_take, List.getElem?_drop]
  split
  · rename_i hin
    rw [getElem?_writeAt hoff (Or.inl (by omega))]
  · rfl

/-- Reading back exactly the written slice gives the written bytes. -/
theorem readAt_writeAt_self {f : List Nat} {off : Nat} {bs : List Nat}
    (hoff : off ≤ f.length) :
    readAt (writeAt f off bs) off bs.length = bs := by
  rw [writeAt_of_le bs hoff, readAt, List.append_assoc]
  rw [List.drop_left' (by simp only [List.length_take]; omega)]
  exact List.take_left' rfl

/-- `file.truncate(n)` / a crash that cuts the file at byte `n`. -/
def truncateFile (f : List Nat) (n : Nat) : List Nat := f.take n

/-! ### The pickled index blob

Modelled from the spec: the index blob is produced by Python's
`cPickle.dumps` on the ordered key → (offset, length) mapping and read
back by `cPickle.loads`, standard-library code outside this repository.
The model is a token encoding with the same contract: injective,
self-delimiting, rejecting truncated input (`UnpicklingError`, modelled
as `none`).  An entry is encoded as key length, key characters, offset,
length; the blob is the entry count followed by the entries. -/

/-- Characters of a Python `str` key as tokens. -/
def strTok (s : String) : List Nat := s.data.map Char.toNat

/-- Rebuild a key from its character tokens. -/
def tokStr (l : List Nat) : String := String.mk (l.map Char.ofNat)

/-- Serialize the index entries. -/
def pickleEntries : List (String × Nat × Nat) → List Nat
  | [] => []
  | (k, off, len) :: t =>
      (strTok k).length :: (strTok k ++ (off :: len :: pickleEntries t))

/-- `cPickle.dumps` of the index mapping. -/
def pickleIndex (d : List (String × Nat × Nat)) : List Nat :=
  d.length :: pickleEntries d

/-- Parse `n` index entries from the front of a token stream. -/
def readEntries : Nat → List Nat → Option (List (String × Nat × Nat) × List Nat)
  | 0, ts => some ([], ts)
  | n + 1, ts =>
    match ts with
    | klen :: r =>
      if klen ≤ r.length then
        match r.drop klen with
        | off :: len :: r2 =>
          match readEntries n r2 with
          | some (es, rest) => some ((tokStr (r.take klen), off, len) :: es, rest)
          | none => none
        | _ => none
      else none
    | [] => none

/-- `cPickle.loads` of an index blob slice: the whole slice must be
consumed. -/
def unpickleIndex (ts : List Nat) : Option (List (String × Nat × Nat)) :=
  match ts with
  | n :: r =>
    match readEntries n r with
    | some (es, []) => some es
    | _ => none
  | [] => none

/-- A truncated-to-nothing blob never unpickles. -/
theorem unpickleIndex_nil : unpickleIndex [] = none := rfl

/-- The index blob is never empty (it always carries the entry count). -/
theorem one_le_pickleIndex_length (d : List (String × Nat × Nat)) :
    1 ≤ (pickleIndex d).length := by
  simp [pickleIndex]

/-! ### Ordered association lists (Python `OrderedDict` / `dict`) -/

/-- `d[k]` lookup: first (and, keys being unique, only) binding wins. -/
def lookupA {β : Type} : List (String × β) → String → Option β
  | [], _ => none
  | (k1, v) :: t, k => if k1 = k then some v else lookupA t k

/-- `d[k] = v`: replace in place if present, else append (Python dict
assignment keeps the original position of an existing key). -/
def insertA {β : Type} : List (String × β) → String → β → List (String × β)
  | [], k, v => [(k, v)]
  | (k1, v1) :: t, k, v =>
      if k1 = k then (k, v) :: t else (k1, v1) :: insertA t k v

/-- `del d[k]`: drop the binding of `k`, keeping the order of the
rest. -/
def removeA {β : Type} : List (String × β) → String → List (String × β)
  | [], _ => []
  | (k1, v1) :: t, k => if k1 = k then removeA t k else (k1, v1) :: removeA t k

theorem lookupA_insertA_self {β : Type} (d : List (String × β)) (k : String)
    (v : β) : lookupA (insertA d k v) k = some v := by
  induction d with
  | nil => simp [insertA, lookupA]
  | cons e t IH =>
    obtain ⟨k1, v1⟩ := e
    by_cases h : k1 = k
    · simp [insertA, h, lookupA]
    · simp [insertA, h, lookupA, IH]

theorem lookupA_removeA_self {β : Type} (d : List (String × β)) (k : String) :
    lookupA (removeA d k) k = none := by
  induction d with
  | nil => simp [removeA, lookupA]
  | cons e t IH =>
    obtain ⟨k1, v1⟩ := e
    by_cases h : k1 = k
    · simp [removeA, h, IH]
    · simp [removeA, h, lookupA, IH]

theorem not_mem_map_fst_removeA {β : Type} (d : List (String × β))
    (k : String) : k ∉ (removeA d k).map Prod.fst := by
  induction d with
  | nil => simp [removeA]
  | cons e t IH =>
    obtain ⟨k1, v1⟩ := e
    by_cases h : k1 = k
    · simpa [removeA, h] using IH
    · simp only [removeA, if_neg h, List.map_cons, List.mem_cons]
      rintro (rfl | hmem)
      · exact h rfl
      · exact IH hmem

/-! ### The store: `MmapDict` -/

/-- Typed errors for the exceptions the Python code raises, named as in
the spec's error model. -/
inductive StoreErr where
  | formatError : StoreErr
  | notFoundError : StoreErr
  | readOnlyError : StoreErr
  | duplicateKeyError : StoreErr
  | keyNotFoundError : StoreErr
  | valueError : StoreErr
  | unpicklingError : StoreErr
deriving DecidableEq, Repr

/-- The in-memory state of a `MmapDict` instance together with the
backing file's bytes.  The memory mapping is shared with the file, so
reads through the mapping are reads of `file`. -/
structure MmapDict where
  dict : List (String × Nat × Nat)
  max_position : Nat
  write_value : List Nat
  new_dict : List (String × List Nat)
  read_only : Bool
  file : List Nat

/-- The characters of the magic marker `'mmapdict'`. -/
def headerTok : List Nat := [109, 109, 97, 112, 100, 105, 99, 116]

/-- Size of the fixed header: 8 magic characters plus two 48-character
decimal fields (`len(HEADER) + SIZE_BYTES * 2 = 104`), which is also the
initial high-water mark. -/
def headerSize : Nat := 104

/-- The bytes written when a fresh file is created: magic, high-water
mark `104`, length of the pickled empty index, then that pickle. -/
def newFile : List Nat :=
  headerTok ++ field48 104 ++ field48 (pickleIndex []).length ++ pickleIndex []

/-- `MmapDict(path)` on a missing/empty path (mutable mode): fresh
in-memory state over a freshly created file. -/
def MmapDict.create : MmapDict :=
  { dict := [], max_position := 104, write_value := [], new_dict := [],
    read_only := false, file := newFile }

/-- The ordered list of `(offset, bytes)` writes `flush()` performs
after reading the old position: new high-water-mark field at offset 8,
index-length field right after it, the buffered data at the old
position, then the pickled index.  This order is the code's, verbatim:
the two header fields are written BEFORE the data region. -/
def MmapDict.flushWrites (st : MmapDict) (oldPos : Nat) : List (Nat × List Nat) :=
  let f1 := field48 st.max_position
  let blob := pickleIndex st.dict
  [(8, f1), (8 + f1.length, field48 blob.length),
   (oldPos, st.write_value), (oldPos + st.write_value.length, blob)]

/-- `flush()`: raise in read-only mode; otherwise read the old position
from the header, perform the four writes in order, remap, and reset the
buffer, the overlay and the high-water mark (to
`old_position + len(write_value)`). -/
def MmapDict.flush (st : MmapDict) : Except StoreErr MmapDict :=
  if st.read_only then .error .readOnlyError
  else
    match parseField (readAt st.file 8 48) with
    | none => .error .valueError
    | some oldPos =>
        .ok { st with
              file := applyWrites st.file (st.flushWrites oldPos),
              max_position := oldPos + st.write_value.length,
              write_value := [], new_dict := [] }

/-- `__setitem__`: reject a key present in `_dict`; otherwise record the
index entry at the current high-water mark, advance it, append the
encoded bytes to the buffer and the overlay, and auto-flush past the
48000-byte threshold.  Note there is no read-only check here. -/
def MmapDict.setitem (st : MmapDict) (k : String) (v : PValue) :
    Except StoreErr MmapDict :=
  if (lookupA st.dict k).isSome then .error .duplicateKeyError
  else
    let bytes := encodePValue v
    let st1 : MmapDict :=
      { st with
        dict := st.dict ++ [(k, st.max_position, bytes.length)],
        max_position := st.max_position + bytes.length,
        write_value := st.write_value ++ bytes,
        new_dict := insertA st.new_dict k bytes }
    if 48000 < st1.write_value.length then st1.flush else .ok st1

/-- `__getitem__`: overlay first (decode the buffered bytes), else look
up the index and decode the mapped slice, else `KeyError`. -/
def MmapDict.getitem (st : MmapDict) (k : String) : Except StoreErr PValue :=
  match lookupA st.new_dict k with
  | some bs =>
      match decodePValue bs with
      | some v => .ok v
      | none => .error .valueError
  | none =>
      match lookupA st.dict k with
      | some (start, size) =>
          match decodePValue (readAt st.file start size) with
          | some v => .ok v
          | none => .error .valueError
      | none => .error .keyNotFoundError

/-- `__contains__`: membership consults `_dict` only. -/
def MmapDict.contains (st : MmapDict) (k : String) : Bool :=
  (lookupA st.dict k).isSome

/-- `__len__`. -/
def MmapDict.size (st : MmapDict) : Nat := st.dict.length

/-- `keys()` (no shuffling): the keys of `_dict` in insertion order. -/
def MmapDict.keysList (st : MmapDict) : List String := st.dict.map Prod.fst

/-- `__delitem__`: `del self._dict[key]` — the overlay, the buffer and
the file are untouched; a missing key raises `KeyError`. -/
def MmapDict.delitem (st : MmapDict) (k : String) : Except StoreErr MmapDict :=
  if (lookupA st.dict k).isSome then .ok { st with dict := removeA st.dict k }
  else .error .keyNotFoundError

/-- `close()`: a mutable instance flushes first; a read-only instance
only releases the mapping and handle (not modelled further). -/
def MmapDict.close (st : MmapDict) : Except StoreErr MmapDict :=
  if st.read_only then .ok st else st.flush

/-- Opening an existing non-empty file: check the magic marker, read the
two header fields with `int(...)`, seek to the high-water mark and
unpickle the index blob. -/
def MmapDict.openFile (f : List Nat) (ro : Bool) : Except StoreErr MmapDict :=
  if readAt f 0 8 ≠ headerTok then .error .formatError
  else
    match parseField (readAt f 8 48) with
    | none => .error .valueError
    | some maxPos =>
        match parseField (readAt f 56 48) with
        | none => .error .valueError
        | some dictSize =>
            match unpickleIndex (readAt f maxPos dictSize) with
            | none => .error .unpicklingError
            | some d =>
                .ok { dict := d, max_position := maxPos, write_value := [],
                      new_dict := [], read_only := ro, file := f }

/-- The key → (offset, length) mapping currently persisted in the file
(what a fresh reader would see), when the file opens at all. -/
def diskIndex (f : List Nat) : Option (List (String × Nat × Nat)) :=
  match MmapDict.openFile f true with
  | .ok st => some st.dict
  | .error _ => none

/-- Extract the state of a successful operation (the scenarios below
always succeed; the default is never used). -/
def exceptGet (e : Except StoreErr MmapDict) : MmapDict :=
  match e with
  | .ok st => st
  | .error _ => MmapDict.create

/-- Basic well-formedness tying the in-memory state to the file: the
stored header field holds the flushed high-water mark
(`max_position` minus the buffered bytes), the buffer never exceeds the
high-water mark, the flushed mark covers the fixed header and lies
within the file, and both numbers fit the 48-digit field budget. -/
def WFfile (st : MmapDict) : Prop :=
  parseField (readAt st.file 8 48)
      = some (st.max_position - st.write_value.length) ∧
  st.write_value.length ≤ st.max_position ∧
  104 ≤ st.max_position - st.write_value.length ∧
  st.max_position - st.write_value.length ≤ st.file.length ∧
  (decDigits st.max_position).length ≤ 48 ∧
  (decDigits (pickleIndex st.dict).length).length ≤ 48

instance (st : MmapDict) : Decidable (WFfile st) := by
  unfold WFfile; infer_instance

/-! ### Supporting lemmas about the store's primitives -/

theorem lookupA_append_of_none {β : Type} (d : List (String × β)) (k : String)
    (e : β) (hnone : lookupA d k = none) :
    lookupA (d ++ [(k, e)]) k = some e := by
  induction d with
  | nil => simp [lookupA]
  | cons x t IH =>
    obtain ⟨k1, v1⟩ := x
    by_cases h : k1 = k
    · simp [lookupA, h] at hnone
    · simp only [lookupA, if_neg h] at hnone
      simpa [lookupA, h] using IH hnone

/-- Reading a slice that survives a truncation is unchanged. -/
theorem readAt_truncateFile {f : List Nat} {m a n : Nat} (h : a + n ≤ m) :
    readAt (truncateFile f m) a n = readAt f a n := by
  simp only [readAt, truncateFile, List.drop_take, List.take_take]
  congr 1
  omega

/-- Inversion of a successful `flush()`: the state it returns, in terms
of the old position `p` read back from the header. -/
theorem flush_ok_inv (st st1 : MmapDict) (p : Nat)
    (hp : parseField (readAt st.file 8 48) = some p)
    (h : st.flush = .ok st1) :
    st.read_only = false ∧
    st1.max_position = p + st.write_value.length ∧ st1.dict = st.dict ∧
    st1.write_value = [] ∧ st1.new_dict = [] ∧
    st1.read_only = st.read_only ∧
    st1.file = applyWrites st.file (st.flushWrites p) := by
  cases hro : st.read_only with
  | true => rw [MmapDict.flush, if_pos hro] at h; cases h
  | false =>
    rw [MmapDict.flush, if_neg (by simp [hro]), hp] at h
    cases h
    simp [hro]

/-- A successful `flush()` determines an old position that was parsed
from the header, and the new high-water mark is that position plus the
buffered length. -/
theorem flush_ok_parse (st st1 : MmapDict) (h : st.flush = .ok st1) :
    ∃ p, parseField (readAt st.file 8 48) = some p ∧
      st1.max_position = p + st.write_value.length := by
  unfold MmapDict.flush at h
  by_cases hro : st.read_only = true
  · rw [if_pos hro] at h
    exact Except.noConfusion h
  · rw [if_neg hro] at h
    cases hp : parseField (readAt st.file 8 48) with
    | none => rw [hp] at h; exact Except.noConfusion h
    | some p =>
      rw [hp] at h
      cases Except.ok.inj h
      exact ⟨p, rfl, rfl⟩

/-- A successful `flush()` leaves every byte of the already-persisted
data region (between the fixed header and the old high-water mark `p`)
untouched: the four writes land on the header fields and at or past
`p`. -/
theorem flush_preserves_data (st : MmapDict) (p : Nat)
    (hdig : (decDigits st.max_position).length ≤ 48)
    (hblob : (decDigits (pickleIndex st.dict).length).length ≤ 48)
    (hp104 : 104 ≤ p) (hpf : p ≤ st.file.length) :
    ∀ i, 104 ≤ i → i + 1 ≤ p →
      (applyWrites st.file (st.flushWrites p))[i]? = st.file[i]? := by
  intro i hi104 hip
  have h48a : (field48 st.max_position).length = 48 := field48_length hdig
  have h48b : (field48 (pickleIndex st.dict).length).length = 48 :=
    field48_length hblob
  simp only [MmapDict.flushWrites, applyWrites, List.foldl, h48a]
  have hL0 : 8 ≤ st.file.length := by omega
  have hlen1 : (writeAt st.file 8 (field48 st.max_position)).length
      = st.file.length := by
    rw [length_writeAt hL0]; omega
  have hg1 : (writeAt st.file 8 (field48 st.max_position))[i]? = st.file[i]? :=
    getElem?_writeAt hL0 (Or.inr (by omega))
  set X1 := writeAt st.file 8 (field48 st.max_position) with hX1
  have hL1 : 8 + 48 ≤ X1.length := by omega
  have hg2 : (writeAt X1 (8 + 48) (field48 (pickleIndex st.dict).length))[i]?
      = X1[i]? :=
    getElem?_writeAt (by omega) (Or.inr (by omega))
  set X2 := writeAt X1 (8 + 48) (field48 (pickleIndex st.dict).length) with hX2
  have hlen2 : X2.length = st.file.length := by
    rw [hX2, length_writeAt (by omega)]; omega
  have hg3 : (writeAt X2 p st.write_value)[i]? = X2[i]? :=
    getElem?_writeAt (by omega) (Or.inl (by omega))
  set X3 := writeAt X2 p st.write_value with hX3
  have hlen3 : p + st.write_value.length ≤ X3.length := by
    rw [hX3, length_writeAt (by omega)]; omega
  have hg4 : (writeAt X3 (p + st.write_value.length) (pickleIndex st.dict))[i]?
      = X3[i]? :=
    getElem?_writeAt (by omega) (Or.inl (by omega))
  rw [hg4, hg3, hg2, hg1]

/-- After a successful `flush()` the buffered bytes sit exactly at the
old high-water mark `p`, readable back unchanged. -/
theorem flush_data_written (st : MmapDict) (p : Nat)
    (hdig : (decDigits st.max_position).length ≤ 48)
    (hp104 : 104 ≤ p) (hpf : p ≤ st.file.length) :
    readAt (applyWrites st.file (st.flushWrites p)) p st.write_value.length
      = st.write_value := by
  have h48a : (field48 st.max_position).length = 48 := field48_length hdig
  simp only [MmapDict.flushWrites, applyWrites, List.foldl, h48a]
  have hL0 : 8 ≤ st.file.length := by omega
  have hlen1 : (writeAt st.file 8 (field48 st.max_position)).length
      = st.file.length := by
    rw [length_writeAt hL0]; omega
  set X1 := writeAt st.file 8 (field48 st.max_position) with hX1
  set X2 := writeAt X1 (8 + 48) (field48 (pickleIndex st.dict).length) with hX2
  have hlen2 : p ≤ X2.length := by
    rw [hX2, length_writeAt (by omega)]; omega
  set X3 := writeAt X2 p st.write_value with hX3
  have hlen3 : p + st.write_value.length ≤ X3.length := by
    rw [hX3, length_writeAt (by omega)]; omega
  rw [readAt_writeAt_before (by omega) (by omega)]
  rw [hX3, readAt_writeAt_self (by omega)]

/-! ### Concrete scenario states

A small family of runs used by the concrete theorems: a fresh store, a
single `put`, a flush, a delete, and a re-insert after delete. -/

/-- The fresh mutable store right after creation. -/
def st0 : MmapDict := MmapDict.create

/-- After `put("a", 1)` on the fresh store. -/
def sPut : MmapDict := exceptGet (st0.setitem "a" (.pint 1))

/-- After `put("a", 1); remove("a")` — the key was still pending. -/
def sPutDel : MmapDict := exceptGet (sPut.delitem "a")

/-- After `put("a", 1); remove("a"); put("a", 2)`. -/
def sPutDelPut : MmapDict := exceptGet (sPutDel.setitem "a" (.pint 2))

/-- After `put("a", 1); flush()`. -/
def sPutF : MmapDict := exceptGet sPut.flush

/-- After `put("a", 1); flush(); remove("a")` — nothing pending, but the
in-memory index no longer matches the persisted one. -/
def sPutFDel : MmapDict := exceptGet (sPutF.delitem "a")

/-- After `put("a", 1); flush(); remove("a"); flush()`. -/
def sPutFDelF : MmapDict := exceptGet sPutFDel.flush

/-- After `put("a", 1); flush(); remove("a"); put("a", 2)`: the stale
entry for `"a"` is still in the persisted index blob while `"a"` is
also pending in the overlay. -/
def sResurrect : MmapDict := exceptGet (sPutFDel.setitem "a" (.pint 2))

/-- A populated file opened with `read_only=True`. -/
def sRO : MmapDict := exceptGet (MmapDict.openFile newFile true)

/-- The result of `put` on the read-only instance. -/
def sROPut : MmapDict := exceptGet (sRO.setitem "a" (.pint 1))

/-- The bytes left behind when a `flush()` from state `st` is
interrupted right after its third write — the data-region write — and
the file is cut at the end of the written data (`p` plus the buffered
length), before the index blob is written. -/
def crashFile (st : MmapDict) (p : Nat) : List Nat :=
  truncateFile (applyWrites st.file ((st.flushWrites p).take 3))
    (p + st.write_value.length)

/-- Does a write trace put the header fields (offsets below
`headerSize = 104`) after all data/index writes (offsets at or past
104)?  The spec's claimed order (data first, index next, header fields
last) makes this `true` for every flush trace. -/
def headerLastB (ws : List (Nat × List Nat)) : Bool :=
  (ws.dropWhile fun w => decide (104 ≤ w.1)).all fun w => decide (w.1 < 104)

/-- Did the operation succeed (no exception raised)? -/
def isOkE (e : Except StoreErr MmapDict) : Bool :=
  match e with
  | .ok _ => true
  | .error _ => false

/-- After `put("a", 1); put("b", 3)`. -/
def sPutB : MmapDict := exceptGet (sPut.setitem "b" (.pint 3))

/-- Inversion of a successful, below-threshold `__setitem__` on a fresh
key: the exact state it produces.  `file` and `read_only` are untouched
by the write. -/
theorem setitem_ok_inv (st : MmapDict) (k : String) (v : PValue)
    (hfresh : lookupA st.dict k = none)
    (hth : st.write_value.length + (encodePValue v).length ≤ 48000) :
    st.setitem k v = .ok
      { st with
        dict := st.dict ++ [(k, st.max_position, (encodePValue v).length)],
        max_position := st.max_position + (encodePValue v).length,
        write_value := st.write_value ++ encodePValue v,
        new_dict := insertA st.new_dict k (encodePValue v) } := by
  unfold MmapDict.setitem
  rw [hfresh]
  simp only [Option.isSome_none, Bool.false_eq_true, if_false]
  rw [if_neg (by simp only [List.length_append]; omega)]

/-- Inversion of a successful `__delitem__`: the key was in the index
and only the index entry is gone. -/
theorem delitem_ok_inv (st : MmapDict) (k : String) (st1 : MmapDict)
    (h : st.delitem k = .ok st1) :
    (lookupA st.dict k).isSome = true ∧
      st1 = { st with dict := removeA st.dict k } := by
  unfold MmapDict.delitem at h
  by_cases hc : (lookupA st.dict k).isSome = true
  · rw [if_pos hc] at h
    exact ⟨hc, (Except.ok.inj h).symm⟩
  · rw [if_neg hc] at h
    simp at h

/-! ## The claims -/

/-- **C7** (confirmed).  For every supported primitive value `v`
(integers, floating-point numbers as their binary64 bit patterns,
booleans, text strings, the absence-of-value marker, and
sequences/mappings recursively composed of these),
`decode (encode v) = v`. -/
theorem claim_serializer_roundtrip (v : PValue) :
    decodePValue (encodePValue v) = some v :=
  decode_encode v

/-- **C6** (confirmed).  For every fresh key `k` and supported value
`v`, after `put(k, v)` succeeds and before any flush (the buffered bytes
stay below the auto-flush threshold), `get(k)` returns `v`, served by
decoding the pending overlay's buffered bytes. -/
theorem claim_put_get_consistency (st : MmapDict) (k : String) (v : PValue)
    (st1 : MmapDict)
    (hfresh : lookupA st.dict k = none)
    (hth : st.write_value.length + (encodePValue v).length ≤ 48000)
    (h : st.setitem k v = .ok st1) :
    st1.getitem k = .ok v ∧
      lookupA st1.new_dict k = some (encodePValue v) := by
  rw [setitem_ok_inv st k v hfresh hth] at h
  cases Except.ok.inj h
  constructor
  · unfold MmapDict.getitem
    simp only [lookupA_insertA_self, decode_encode]
  · exact lookupA_insertA_self _ _ _

/-- Witness for C6: on a fresh store, `put("x", [1, 2, 3])` then
`get("x")` returns `[1, 2, 3]`. -/
def vX : PValue :=
  .plist (.cons (.pint 1) (.cons (.pint 2) (.cons (.pint 3) .nil)))

/-- The store after `put("x", [1, 2, 3])` on a fresh store. -/
def s6 : MmapDict := exceptGet (st0.setitem "x" vX)

theorem claim_put_get_consistency_witness : s6.getitem "x" = .ok vX :=
  (claim_put_get_consistency st0 "x" vX s6 rfl (by decide) rfl).1

/-- **C10** (confirmed).  A key inserted since the last flush and then
deleted leaves its encoded bytes in the overlay: `get(k)` still returns
the inserted value (the overlay is consulted before the index), while
`contains(k)` is false and `k` is absent from `keys()`. -/
theorem claim_deleted_overlay_ghost (st : MmapDict) (k : String) (v : PValue)
    (st1 st2 : MmapDict)
    (hfresh : lookupA st.dict k = none)
    (hth : st.write_value.length + (encodePValue v).length ≤ 48000)
    (h1 : st.setitem k v = .ok st1) (h2 : st1.delitem k = .ok st2) :
    st2.getitem k = .ok v ∧ st2.contains k = false ∧ k ∉ st2.keysList ∧
      lookupA st2.new_dict k = some (encodePValue v) := by
  rw [setitem_ok_inv st k v hfresh hth] at h1
  cases Except.ok.inj h1
  obtain ⟨-, rfl⟩ := delitem_ok_inv _ k st2 h2
  refine ⟨?_, ?_, ?_, ?_⟩
  · unfold MmapDict.getitem
    simp only [lookupA_insertA_self, decode_encode]
  · simp [MmapDict.contains, lookupA_removeA_self]
  · unfold MmapDict.keysList
    exact not_mem_map_fst_removeA _ k
  · exact lookupA_insertA_self _ _ _

/-- Witness for C10: `put("a", 1); remove("a")` — `get` still returns 1,
`contains` is false, `"a"` is not iterated. -/
theorem claim_deleted_overlay_ghost_witness :
    sPutDel.getitem "a" = .ok (.pint 1) ∧ sPutDel.contains "a" = false ∧
      "a" ∉ sPutDel.keysList :=
  have h := claim_deleted_overlay_ghost st0 "a" (.pint 1) sPut sPutDel rfl
    (by decide) rfl rfl
  ⟨h.1, h.2.1, h.2.2.1⟩

/-- **C5** (corrected), counterexample.  The claim says `put(k, v2)`
fails `DuplicateKeyError` for every `k` present in either layer.  After
`put("a", 1); remove("a")` the key is still present in the overlay layer
(and `get("a")` would still serve it), yet `put("a", 2)` succeeds and
overwrites the overlay bytes instead of failing. -/
theorem claim_duplicate_rejection_counterexample :
    lookupA sPutDel.new_dict "a" = some (encodePValue (.pint 1)) ∧
    sPutDel.contains "a" = false ∧
    sPutDel.setitem "a" (.pint 2) = .ok sPutDelPut ∧
    sPutDelPut.getitem "a" = .ok (.pint 2) :=
  ⟨rfl, rfl, rfl, rfl⟩

/-- **C5** (corrected), amended.  Duplicate rejection is driven by the
index (`_dict`) alone: `put(k, v2)` fails `DuplicateKeyError`, touching
nothing (the check is the first statement of `__setitem__`), exactly
when `k` is in the index.  A key held only by the overlay — possible
only after removing a pending key — is not rejected. -/
theorem claim_duplicate_rejection (st : MmapDict) (k : String) (v : PValue)
    (h : (lookupA st.dict k).isSome = true) :
    st.setitem k v = .error .duplicateKeyError := by
  unfold MmapDict.setitem
  rw [if_pos h]

theorem claim_duplicate_rejection_witness :
    sPut.setitem "a" (.pint 9) = .error .duplicateKeyError :=
  claim_duplicate_rejection sPut "a" (.pint 9) rfl

/-- **C3** (corrected), counterexample.  The claim says that after
`remove(k)`, `get(k)` fails `KeyNotFoundError` whichever layer held `k`.
For a key still pending in the overlay this is wrong: after
`put("a", 1); remove("a")`, `get("a")` returns `1`. -/
theorem claim_remove_counterexample :
    sPut.delitem "a" = .ok sPutDel ∧
    sPutDel.getitem "a" = .ok (.pint 1) ∧
    sPutDel.getitem "a" ≠ .error .keyNotFoundError := by
  refine ⟨rfl, rfl, ?_⟩
  intro h
  rw [show sPutDel.getitem "a" = .ok (.pint 1) from rfl] at h
  exact Except.noConfusion h

/-- **C3** (corrected), amended.  `remove(k)` deletes `k` from the index
only (`del self._dict[key]`): afterwards `contains(k)` is false, `k` no
longer appears in iteration, and no bytes are reclaimed (file, overlay
and high-water mark untouched); `get(k)` fails `KeyNotFoundError` only
when the overlay does not still hold `k` — a deleted pending key is
still served from the overlay. -/
theorem claim_remove_spec (st : MmapDict) (k : String) (st1 : MmapDict)
    (h : st.delitem k = .ok st1) :
    st1.contains k = false ∧ k ∉ st1.keysList ∧ st1.file = st.file ∧
      st1.max_position = st.max_position ∧
      st1.write_value = st.write_value ∧ st1.new_dict = st.new_dict ∧
      (lookupA st.new_dict k = none →
        st1.getitem k = .error .keyNotFoundError) := by
  obtain ⟨-, rfl⟩ := delitem_ok_inv st k st1 h
  refine ⟨?_, ?_, rfl, rfl, rfl, rfl, ?_⟩
  · simp [MmapDict.contains, lookupA_removeA_self]
  · unfold MmapDict.keysList
    exact not_mem_map_fst_removeA _ k
  · intro hnd
    unfold MmapDict.getitem
    simp only [hnd, lookupA_removeA_self]

theorem claim_remove_spec_witness :
    sPutFDel.contains "a" = false ∧
      sPutFDel.getitem "a" = .error .keyNotFoundError :=
  have h := claim_remove_spec sPutF "a" sPutFDel rfl
  ⟨h.1, h.2.2.2.2.2.2 rfl⟩

/-- **C2** (corrected), counterexample.  The claim says `put` fails
`ReadOnlyError` on a read-only instance.  `__setitem__` has no read-only
check: on a read-only instance `put("a", 1)` succeeds, buffering the
insertion in memory (the file is not touched). -/
theorem claim_read_only_counterexample :
    sRO.read_only = true ∧
    sRO.setitem "a" (.pint 1) = .ok sROPut ∧
    sROPut.file = sRO.file :=
  ⟨rfl, rfl, rfl⟩

/-- **C2** (corrected), amended.  `flush()` on a read-only instance
fails `ReadOnlyError` before touching anything; `put(k, v)` on a
read-only instance does NOT fail `ReadOnlyError` — below the auto-flush
threshold it succeeds, mutating only the in-memory state and leaving
the file bytes unchanged. -/
theorem claim_read_only_enforcement (st : MmapDict) (k : String) (v : PValue)
    (hro : st.read_only = true) :
    st.flush = .error .readOnlyError ∧
    (lookupA st.dict k = none →
      st.write_value.length + (encodePValue v).length ≤ 48000 →
      st.setitem k v = .ok
        { st with
          dict := st.dict ++ [(k, st.max_position, (encodePValue v).length)],
          max_position := st.max_position + (encodePValue v).length,
          write_value := st.write_value ++ encodePValue v,
          new_dict := insertA st.new_dict k (encodePValue v) }) := by
  constructor
  · unfold MmapDict.flush
    rw [if_pos hro]
  · intro hfresh hth
    exact setitem_ok_inv st k v hfresh hth

theorem claim_read_only_enforcement_witness :
    sRO.flush = .error .readOnlyError :=
  (claim_read_only_enforcement sRO "a" (.pint 1) rfl).1

/-- **C4** (corrected), counterexample.  The claim says the persisted
index and the pending overlay always have disjoint key sets.  After
`put("a", 1); flush(); remove("a"); put("a", 2)` the key `"a"` is
simultaneously in the index blob persisted in the file (stale entry at
offset 104), in the in-memory index (fresh entry at offset 107), and in
the pending overlay. -/
theorem claim_layer_disjoint_counterexample :
    diskIndex sResurrect.file = some [("a", 104, 3)] ∧
    lookupA sResurrect.dict "a" = some (107, 3) ∧
    lookupA sResurrect.new_dict "a" = some (encodePValue (.pint 2)) :=
  ⟨rfl, rfl, rfl⟩

/-- **C4** (corrected), amended.  The index and the overlay are not
disjoint: every successful below-threshold `put` records the key in
both at once (`_dict` gets the (offset, length) entry, `_new_dict` the
encoded bytes); the overlay is cleared — not moved — by `flush`, which
pickles the whole `_dict` as the new persisted index. -/
theorem claim_layer_overlap (st : MmapDict) (k : String) (v : PValue)
    (hfresh : lookupA st.dict k = none)
    (hth : st.write_value.length + (encodePValue v).length ≤ 48000) :
    (∀ st1, st.setitem k v = .ok st1 →
      (lookupA st1.dict k).isSome = true ∧
      (lookupA st1.new_dict k).isSome = true) ∧
    (∀ st2, st.flush = .ok st2 → st2.new_dict = []) := by
  constructor
  · intro st1 h
    rw [setitem_ok_inv st k v hfresh hth] at h
    cases Except.ok.inj h
    constructor
    · rw [lookupA_append_of_none st.dict k _ hfresh]
      rfl
    · rw [lookupA_insertA_self]
      rfl
  · intro st2 h
    unfold MmapDict.flush at h
    by_cases hro : st.read_only = true
    · rw [if_pos hro] at h
      exact Except.noConfusion h
    · rw [if_neg hro] at h
      cases hp : parseField (readAt st.file 8 48) with
      | none => rw [hp] at h; exact Except.noConfusion h
      | some p =>
        rw [hp] at h
        cases Except.ok.inj h
        rfl

theorem claim_layer_overlap_witness :
    (lookupA sPutB.dict "b").isSome = true ∧
      (lookupA sPutB.new_dict "b").isSome = true ∧
      sPutF.new_dict = [] :=
  have h := claim_layer_overlap sPut "b" (.pint 3) rfl (by decide)
  ⟨(h.1 sPutB rfl).1, (h.1 sPutB rfl).2, h.2 sPutF rfl⟩

/-- **C8** (confirmed).  In a well-formed state, the high-water mark
never decreases under `put`, `flush`, `remove` or `close`; a `flush`
leaves it exactly unchanged, lands the buffered bytes at the old
on-file mark, and never touches already-written data-region bytes
(between the fixed header and the old mark). -/
theorem claim_hwm_monotone (st : MmapDict) (hWF : WFfile st) :
    (∀ k v st1, st.setitem k v = .ok st1 →
      st.max_position ≤ st1.max_position) ∧
    (∀ st1, st.flush = .ok st1 →
      st1.max_position = st.max_position ∧
      readAt st1.file (st.max_position - st.write_value.length)
          st.write_value.length = st.write_value ∧
      ∀ i, 104 ≤ i → i + 1 ≤ st.max_position - st.write_value.length →
        st1.file[i]? = st.file[i]?) ∧
    (∀ k st1, st.delitem k = .ok st1 →
      st1.max_position = st.max_position ∧ st1.file = st.file) ∧
    (∀ st1, st.close = .ok st1 → st.max_position ≤ st1.max_position) := by
  obtain ⟨hparse, hle, h104, hfl, hdig, hblob⟩ := hWF
  have hflush : ∀ st1, st.flush = .ok st1 →
      st1.max_position = st.max_position ∧
      readAt st1.file (st.max_position - st.write_value.length)
          st.write_value.length = st.write_value ∧
      ∀ i, 104 ≤ i → i + 1 ≤ st.max_position - st.write_value.length →
        st1.file[i]? = st.file[i]? := by
    intro st1 h
    obtain ⟨hro, hmax, hdict, hwv, hnd, hroeq, hfile⟩ :=
      flush_ok_inv st st1 _ hparse h
    refine ⟨by omega, ?_, ?_⟩
    · rw [hfile]
      exact flush_data_written st _ hdig h104 hfl
    · intro i hi hip
      rw [hfile]
      exact flush_preserves_data st _ hdig hblob h104 hfl i hi hip
  refine ⟨?_, hflush, ?_, ?_⟩
  · intro k v st1 h
    unfold MmapDict.setitem at h
    by_cases hdup : (lookupA st.dict k).isSome = true
    · rw [if_pos hdup] at h
      exact Except.noConfusion h
    · rw [if_neg hdup] at h
      simp only [List.length_append] at h
      by_cases hth : 48000 < st.write_value.length + (encodePValue v).length
      · rw [if_pos hth] at h
        obtain ⟨p, hp, hmax⟩ := flush_ok_parse _ st1 h
        have hpp : st.max_position - st.write_value.length = p :=
          Option.some.inj (hparse.symm.trans hp)
        have hmax2 : st1.max_position
            = p + (st.write_value ++ encodePValue v).length := hmax
        simp only [List.length_append] at hmax2
        omega
      · rw [if_neg hth] at h
        cases Except.ok.inj h
        simp only []
        omega
  · intro k st1 h
    obtain ⟨-, rfl⟩ := delitem_ok_inv st k st1 h
    exact ⟨rfl, rfl⟩
  · intro st1 h
    unfold MmapDict.close at h
    by_cases hro : st.read_only = true
    · rw [if_pos hro] at h
      cases Except.ok.inj h
      exact le_refl _
    · rw [if_neg hro] at h
      exact le_of_eq (hflush st1 h).1.symm

theorem claim_hwm_monotone_witness :
    sPut.max_position ≤ sPutB.max_position ∧
      sPutF.max_position = sPut.max_position :=
  have h := claim_hwm_monotone sPut (by decide)
  ⟨h.1 "b" (.pint 3) sPutB rfl, (h.2.1 sPutF rfl).1⟩

/-- **C9** (corrected), counterexample.  The claim says a `flush()` with
nothing pending (empty buffer, empty overlay) leaves everything —
including the header fields — unchanged.  After
`put("a", 1); flush(); remove("a")` nothing is pending, yet the next
`flush()` rewrites the index-length header field (the removal is
persisted): the bytes at offset 56 differ. -/
theorem claim_noop_flush_counterexample :
    sPutFDel.write_value = [] ∧ sPutFDel.new_dict = [] ∧
    sPutFDel.flush = .ok sPutFDelF ∧
    readAt sPutFDelF.file 56 48 ≠ readAt sPutFDel.file 56 48 := by
  refine ⟨rfl, rfl, rfl, by decide⟩

/-- **C9** (corrected), amended.  A `flush()` with nothing pending
succeeds and is a no-op on the in-memory state (index, key set,
high-water mark) and on the data region of the file; but it
unconditionally rewrites the header fields and the index blob from the
in-memory index, so the persisted index/header may change if removals
happened since the last flush. -/
theorem claim_noop_flush (st : MmapDict) (hWF : WFfile st)
    (hwv : st.write_value = []) (hro : st.read_only = false) :
    isOkE st.flush = true ∧
    (∀ st1, st.flush = .ok st1 →
      st1.dict = st.dict ∧ st1.max_position = st.max_position ∧
      st1.write_value = [] ∧ st1.new_dict = [] ∧
      ∀ i, 104 ≤ i → i + 1 ≤ st.max_position → st1.file[i]? = st.file[i]?) := by
  obtain ⟨hparse, hle, h104, hfl, hdig, hblob⟩ := hWF
  rw [hwv] at hparse h104 hfl
  simp only [List.length_nil, Nat.sub_zero] at hparse h104 hfl
  constructor
  · unfold MmapDict.flush
    rw [if_neg (by simp [hro]), hparse]
    rfl
  · intro st1 h
    obtain ⟨-, hmax, hdict, hwv1, hnd1, -, hfile⟩ :=
      flush_ok_inv st st1 _ hparse h
    refine ⟨hdict, by rw [hmax, hwv]; simp, hwv1, hnd1, ?_⟩
    intro i hi hip
    rw [hfile]
    exact flush_preserves_data st st.max_position hdig hblob h104 hfl i hi hip

theorem claim_noop_flush_witness :
    isOkE sPutFDel.flush = true ∧ sPutFDelF.dict = sPutFDel.dict ∧
      sPutFDelF.max_position = sPutFDel.max_position :=
  have h := claim_noop_flush sPutFDel (by decide) rfl rfl
  ⟨h.1, (h.2 sPutFDelF rfl).1, (h.2 sPutFDelF rfl).2.1⟩

/-- **C1** (corrected), counterexample.  The claim says `flush()` writes
the data bytes first, then the index blob, then the two header fields
last, so that truncation after the data write leaves the pre-flush
header readable.  In fact the trace of `flush()` from the state after
`put("a", 1)` is: header field at offset 8, header field at offset 56,
data at offset 104, index blob at offset 107 — the header fields come
FIRST.  Truncating right after the data write leaves the NEW high-water
mark (107, not the pre-flush 104) in the header, and reopening fails to
unpickle the missing index blob instead of yielding the pre-flush
state. -/
theorem claim_flush_order_counterexample :
    parseField (readAt sPut.file 8 48) = some 104 ∧
    (sPut.flushWrites 104).map Prod.fst = [8, 56, 104, 107] ∧
    headerLastB (sPut.flushWrites 104) = false ∧
    sPut.flush = .ok sPutF ∧
    parseField (readAt (crashFile sPut 104) 8 48) = some 107 ∧
    MmapDict.openFile (crashFile sPut 104) false = .error .unpicklingError :=
  ⟨rfl, rfl, rfl, rfl, rfl, rfl⟩

/-- **C1** (corrected), amended.  In any well-formed mutable state,
`flush()` writes in the order: high-water-mark field (offset 8),
index-length field (offset 56), buffered data at the old mark `p`,
index blob after it — the header fields first, NOT last.  Consequently,
if the file is truncated right after the data-region write but before
the index-blob write, the truncated file carries the NEW header values
(the in-memory high-water mark and the new index-blob length), and
reopening fails to load the index (an unpickling error) rather than
recovering the pre-flush state. -/
theorem claim_flush_order (st : MmapDict) (p : Nat)
    (hWF : WFfile st)
    (hmagic : readAt st.file 0 8 = headerTok)
    (hp : p = st.max_position - st.write_value.length) :
    (st.flushWrites p).map Prod.fst
        = [8, 56, p, p + st.write_value.length] ∧
    headerLastB (st.flushWrites p) = false ∧
    parseField (readAt (crashFile st p) 8 48) = some st.max_position ∧
    parseField (readAt (crashFile st p) 56 48)
        = some (pickleIndex st.dict).length ∧
    MmapDict.openFile (crashFile st p) false = .error .unpicklingError := by
  obtain ⟨hparse, hle, h104, hfl, hdig, hblob⟩ := hWF
  have h104p : 104 ≤ p := by omega
  have hflp : p ≤ st.file.length := by omega
  have hpw : p + st.write_value.length = st.max_position := by omega
  have h48a : (field48 st.max_position).length = 48 := field48_length hdig
  have h48b : (field48 (pickleIndex st.dict).length).length = 48 :=
    field48_length hblob
  have hlen1 : (writeAt st.file 8 (field48 st.max_position)).length
      = st.file.length := by
    rw [length_writeAt (by omega), h48a]; omega
  have hlen2 : (writeAt (writeAt st.file 8 (field48 st.max_position)) 56
        (field48 (pickleIndex st.dict).length)).length = st.file.length := by
    rw [length_writeAt (by rw [hlen1]; omega), h48b, hlen1]; omega
  have hlen3 : (writeAt (writeAt (writeAt st.file 8 (field48 st.max_position))
        56 (field48 (pickleIndex st.dict).length)) p st.write_value).length
      = max st.file.length (p + st.write_value.length) := by
    rw [length_writeAt (by rw [hlen2]; omega), hlen2]
  have hcrash : crashFile st p
      = truncateFile
          (writeAt (writeAt (writeAt st.file 8 (field48 st.max_position)) 56
            (field48 (pickleIndex st.dict).length)) p st.write_value)
          (p + st.write_value.length) := by
    rw [crashFile]
    simp [MmapDict.flushWrites, applyWrites, h48a]
  have hclen : (truncateFile
        (writeAt (writeAt (writeAt st.file 8 (field48 st.max_position)) 56
          (field48 (pickleIndex st.dict).length)) p st.write_value)
        (p + st.write_value.length)).length = p + st.write_value.length := by
    simp only [truncateFile, List.length_take, hlen3]
    omega
  have hr8 : readAt (crashFile st p) 8 48 = field48 st.max_position := by
    rw [hcrash, readAt_truncateFile (by omega)]
    rw [readAt_writeAt_before (by rw [hlen2]; omega) (by omega)]
    rw [readAt_writeAt_before (by rw [hlen1]; omega) (by omega)]
    rw [← h48a, readAt_writeAt_self (by omega)]
  have hr56 : readAt (crashFile st p) 56 48
      = field48 (pickleIndex st.dict).length := by
    rw [hcrash, readAt_truncateFile (by omega)]
    rw [readAt_writeAt_before (by rw [hlen2]; omega) (by omega)]
    rw [← h48b, readAt_writeAt_self (by rw [hlen1]; omega)]
  have hr0 : readAt (crashFile st p) 0 8 = headerTok := by
    rw [hcrash, readAt_truncateFile (by omega)]
    rw [readAt_writeAt_before (by rw [hlen2]; omega) (by omega)]
    rw [readAt_writeAt_before (by rw [hlen1]; omega) (by omega)]
    rw [readAt_writeAt_before (by omega) (by omega)]
    exact hmagic
  refine ⟨?_, ?_, ?_, ?_, ?_⟩
  · simp [MmapDict.flushWrites, h48a]
  · have hplt : decide (p < 104) = false := decide_eq_false (by omega)
    simp [headerLastB, MmapDict.flushWrites, h48a, hplt]
  · rw [hr8]; exact parseField_field48 _
  · rw [hr56]; exact parseField_field48 _
  · have hdropnil : (crashFile st p).drop st.max_position = [] := by
      apply List.drop_eq_nil_iff.mpr
      rw [hcrash, hclen]
      omega
    have hreadnil : ∀ n, readAt (crashFile st p) st.max_position n = [] := by
      intro n
      rw [readAt, hdropnil, List.take_nil]
    unfold MmapDict.openFile
    rw [if_neg (by simp [hr0])]
    simp only [hr8, hr56, parseField_field48, hreadnil, unpickleIndex_nil]

theorem claim_flush_order_witness :
    headerLastB (sPut.flushWrites 104) = false ∧
      MmapDict.openFile (crashFile sPut 104) false
        = .error .unpicklingError :=
  have h := claim_flush_order sPut 104 (by decide) rfl rfl
  ⟨h.2.1, h.2.2.2.2⟩
